import Mathlib

/-!
A shallow embedding of `epub_convert.py` (EPUB → plain text / printable
HTML converter) together with proofs of the specification claims.

Python strings are modelled as Lean `String` / `List Char`; Python lists
and dicts as Lean lists (dicts as association lists with last-write-wins
lookup); functions that can raise recoverable exceptions return `Option`;
the two fatal exceptions of the public entry points are modelled with
`Except`.  Results of standard-library calls performed on raw bytes
(XML parsing, text decoding) are modelled as fields of the archive-entry
record, since the byte-level parsers are not part of this repository.

All string primitives are re-implemented by structural recursion on
`List Char` so that every definition evaluates inside the kernel.
-/

/-! ### Python string primitives -/

/-- Characters stripped by Python `str.strip()` (the ASCII whitespace
subset, which is all that can occur here). -/
def pyIsSpace (c : Char) : Bool :=
  c = ' ' || c = '\t' || c = '\n' || c = '\r' || c = '\x0b' || c = '\x0c'

/-- Python `str.strip()` on a character list. -/
def pyStripList (l : List Char) : List Char :=
  ((l.dropWhile pyIsSpace).reverse.dropWhile pyIsSpace).reverse

/-- Python `str.strip()`. -/
def pyStrip (s : String) : String :=
  (pyStripList s.data).asString

/-- Is `needle` an initial segment of `hay`? (helper for substring and
search primitives). -/
def isPre : List Char → List Char → Bool
  | [], _ => true
  | _ :: _, [] => false
  | a :: as, b :: bs => a = b && isPre as bs

/-- Does `hay` contain `needle` as a contiguous sublist?
(Python `needle in hay` on strings.) -/
def hasSubList (needle : List Char) : List Char → Bool
  | [] => needle.isEmpty
  | b :: bs => isPre needle (b :: bs) || hasSubList needle bs

/-- Python `sub in s` for strings. -/
def strContains (s sub : String) : Bool :=
  hasSubList sub.data s.data

/-- Python `s.split(sep)` for a non-empty separator, fuelled so that the
recursion is structural (each step consumes at least one character, so
`fuel = l.length` always suffices; the `0` case is unreachable then). -/
def splitListF (sep : List Char) : Nat → List Char → List (List Char)
  | _, [] => [[]]
  | 0, l => [l]
  | fuel + 1, c :: cs =>
    if isPre sep (c :: cs) then
      [] :: splitListF sep fuel (cs.drop (sep.length - 1))
    else
      match splitListF sep fuel cs with
      | [] => [[c]]
      | h :: t => (c :: h) :: t

/-- Python `s.split(sep)`: split on non-overlapping occurrences of the
non-empty separator, scanning left to right. -/
def splitList (sep l : List Char) : List (List Char) :=
  splitListF sep l.length l

/-- Python `s.replace(pat, rep)` for a non-empty pattern (fuelled, as
for `splitListF`). -/
def replaceListF (pat rep : List Char) : Nat → List Char → List Char
  | _, [] => []
  | 0, l => l
  | fuel + 1, c :: cs =>
    if isPre pat (c :: cs) then
      rep ++ replaceListF pat rep fuel (cs.drop (pat.length - 1))
    else
      c :: replaceListF pat rep fuel cs

/-- Python `s.replace(pat, rep)` for a non-empty pattern. -/
def replaceList (pat rep l : List Char) : List Char :=
  replaceListF pat rep l.length l

/-- Python `s.replace(pat, rep)` on strings. -/
def strReplace (s pat rep : String) : String :=
  (replaceList pat.data rep.data s.data).asString

/-- Python `sep.join(parts)` on character lists. -/
def joinWith (sep : List Char) : List (List Char) → List Char
  | [] => []
  | [p] => p
  | p :: q :: rest => p ++ sep ++ joinWith sep (q :: rest)

/-- ASCII lower-casing of one character (Python `str.lower()` restricted
to the ASCII range that occurs in markup tags and archive names). -/
def lowerChar (c : Char) : Char :=
  if 'A' ≤ c && c ≤ 'Z' then Char.ofNat (c.toNat + 32) else c

/-- Python `s.lower()`. -/
def lowerList (l : List Char) : List Char := l.map lowerChar

def strLower (s : String) : String := (lowerList s.data).asString

/-- Does the list end with the given pattern? (Python `str.endswith`). -/
def endsWithList (pat l : List Char) : Bool :=
  isPre pat.reverse l.reverse

/-- Python string `≤` : lexicographic on code points. -/
def lexLe : List Char → List Char → Bool
  | [], _ => true
  | _ :: _, [] => false
  | a :: as, b :: bs =>
    if a.val < b.val then true
    else if b.val < a.val then false
    else lexLe as bs

/-- Python `≤` on strings (the order used by `list.sort()`). -/
def strLeB (a b : String) : Bool := lexLe a.data b.data

/-- Insert into a sorted list of strings (auxiliary for `pySort`). -/
def insertStr (x : String) : List String → List String
  | [] => [x]
  | y :: ys => if strLeB x y then x :: y :: ys else y :: insertStr x ys

/-- Python `list.sort()` on strings.  Since `strLeB` is a total
antisymmetric order, the sorted permutation is unique, so insertion sort
produces exactly the result of Python's (stable) sort. -/
def pySort : List String → List String
  | [] => []
  | x :: xs => insertStr x (pySort xs)

/-! ### Line-ending and whitespace normalisation
(the `str.replace` / `re.sub` calls of `_TextExtractor.get_text` and
`epub_to_txt`). -/

/-- Python `text.replace("\r\n", "\n").replace("\r", "\n")` on a char list. -/
def normEOL : List Char → List Char
  | [] => []
  | '\r' :: '\n' :: cs => '\n' :: normEOL cs
  | '\r' :: cs => '\n' :: normEOL cs
  | c :: cs => c :: normEOL cs

/-- The character class `[ \t\f\v]` of the horizontal-whitespace regex. -/
def isHSpace (c : Char) : Bool :=
  c = ' ' || c = '\t' || c = '\x0c' || c = '\x0b'

/-- Python `re.sub(r"[ \t\f\v]+", " ", ·)`: collapse every run of horizontal
whitespace to one space.  The flag records whether the previous character
was part of such a run. -/
def collapseHSAux : Bool → List Char → List Char
  | _, [] => []
  | inRun, c :: cs =>
    if isHSpace c then
      if inRun then collapseHSAux true cs
      else ' ' :: collapseHSAux true cs
    else c :: collapseHSAux false cs

def collapseHS (l : List Char) : List Char := collapseHSAux false l

/-- Python `re.sub(r"\n\x7b3,\x7d", "\n\n", ·)`: shorten every run of `k ≥ 3` newlines
to two.  `n` counts the newlines already seen in the current run. -/
def collapseNLAux : Nat → List Char → List Char
  | _, [] => []
  | n, c :: cs =>
    if c = '\n' then
      if 2 ≤ n then collapseNLAux (n + 1) cs
      else '\n' :: collapseNLAux (n + 1) cs
    else c :: collapseNLAux 0 cs

def collapseNL (l : List Char) : List Char := collapseNLAux 0 l

/-- String version of the newline-run collapse. -/
def collapseNLStr (s : String) : String := (collapseNL s.data).asString

/-! ### `_join_path` -/

/-- The segment-normalisation loop inside `_join_path`: skip empty and
`.` segments, pop one segment on `..` (a no-op when nothing remains). -/
def normSegs (parts : List String) : List String → List String
  | [] => parts
  | p :: rest =>
    if p = "" || p = "." then normSegs parts rest
    else if p = ".." then normSegs parts.dropLast rest
    else normSegs (parts ++ [p]) rest

/-- Split a string on `/` (Python `s.split("/")`). -/
def splitSlash (s : String) : List String :=
  (splitList ['/'] s.data).map List.asString

/-- Join with `/` (Python `"/".join(parts)`). -/
def joinSlash (parts : List String) : String :=
  (joinWith ['/'] (parts.map String.data)).asString

/-- Source `_join_path(base, rel)`: resolve `rel` against the
directory containing `base`, normalising `.`/`..`, except that a `base`
that is empty or has no `/` returns `rel` unchanged. -/
def _join_path (base rel : String) : String :=
  if base = "" then rel
  else if !(strContains base "/") then rel
  else
    let pref := joinSlash (splitSlash base).dropLast
    joinSlash (normSegs [] (splitSlash (pref ++ "/" ++ rel)))

/-! ### XML documents
A parsed XML element as produced by `xml.etree.ElementTree.fromstring`:
tag names are in expanded Clark notation `{namespace-uri}local`, exactly
how `ElementTree` stores them and how the namespace map `_NS` of the
source resolves the `c:` / `opf:` / `dc:` paths. -/

inductive Xml where
  | elem (tag : String) (attrib : List (String × String))
         (text : Option String) (children : List Xml)

def Xml.tag : Xml → String
  | .elem t _ _ _ => t

def Xml.attrib : Xml → List (String × String)
  | .elem _ a _ _ => a

def Xml.text : Xml → Option String
  | .elem _ _ t _ => t

def Xml.children : Xml → List Xml
  | .elem _ _ _ c => c

/-- Models `element.attrib.get(key)`: attribute lookup (keys are unique). -/
def Xml.getAttr (x : Xml) (key : String) : Option String :=
  (x.attrib.find? (fun p => p.1 = key)).map Prod.snd

mutual
/-- All proper descendants of an element in document order (the set and
order over which an `ElementTree` `.//` path searches). -/
def Xml.descendants : Xml → List Xml
  | .elem _ _ _ cs => descListAux cs

def descListAux : List Xml → List Xml
  | [] => []
  | x :: xs => x :: (Xml.descendants x ++ descListAux xs)
end

/-- Models `root.find(".//tag")`: first descendant with the given tag. -/
def Xml.findDesc (x : Xml) (tag : String) : Option Xml :=
  x.descendants.find? (fun e => e.tag = tag)

/-- Models `root.findall(".//ptag/ctag")`: for each descendant with tag `ptag`
(in document order), its children with tag `ctag` in order. -/
def Xml.findallDescChild (x : Xml) (ptag ctag : String) : List Xml :=
  (x.descendants.filter (fun e => e.tag = ptag)).flatMap
    (fun e => e.children.filter (fun ch => ch.tag = ctag))

/-- Namespace URIs of the `_NS` map. -/
def nsContainer : String := "urn:oasis:names:tc:opendocument:xmlns:container"

def nsOpf : String := "http://www.idpf.org/2007/opf"

def nsDc : String := "http://purl.org/dc/elements/1.1/"

/-- Clark-notation tag `\x7buri\x7dlocal`. -/
def clark (uri local_ : String) : String := "\x7b" ++ uri ++ "\x7d" ++ local_

/-! ### The archive
A zip archive is a list of named entries.  An entry's raw bytes are
modelled by the results of the (standard-library) operations the source
performs on them: `xml?` is the result of `ET.fromstring` (`none` models
`ParseError`), `utf8?` the result of a strict `bytes.decode("utf-8")`
(`none` models `UnicodeDecodeError`), and `latin1` the result of
`bytes.decode("latin-1", errors="replace")`, which never fails. -/

structure EntryBytes where
  xml? : Option Xml
  utf8? : Option String
  latin1 : String

structure Archive where
  entries : List (String × EntryBytes)

/-- Models `zf.read(name)`: `none` models the `KeyError` raised for a missing
member. -/
def Archive.read (zf : Archive) (name : String) : Option EntryBytes :=
  (zf.entries.find? (fun p => p.1 = name)).map Prod.snd

/-- Models `zf.namelist()`. -/
def Archive.namelist (zf : Archive) : List String :=
  zf.entries.map Prod.fst

/-! ### EPUB parsing helpers -/

/-- Source `_read_container_rootfile`: read `META-INF/container.xml`, parse it,
and return the `full-path` attribute of the first `rootfile` element;
`none` models every `return None` branch (missing entry, parse error,
missing element) and also a missing attribute. -/
def _read_container_rootfile (zf : Archive) : Option String :=
  match zf.read "META-INF/container.xml" with
  | none => none
  | some data =>
    match data.xml? with
    | none => none
    | some root =>
      match root.findDesc (clark nsContainer "rootfile") with
      | none => none
      | some el => el.getAttr "full-path"

/-- Result triple of `_parse_opf`. -/
structure OpfResult where
  title : Option String
  manifest : List (String × String × String)
  spineIds : List String
deriving DecidableEq

/-- Python-dict lookup on the manifest association list: the manifest is
built by `manifest[item_id] = ...`, so the *last* binding of an id wins. -/
def dictGet (m : List (String × String × String)) (k : String) :
    Option (String × String) :=
  (m.reverse.find? (fun e => e.1 = k)).map Prod.snd

/-- Truthiness of an optional string attribute (Python `if x:`). -/
def optTruthy : Option String → Bool
  | none => false
  | some s => s ≠ ""

/-- Source `_parse_opf`: read and parse the package document; `none` models the
exceptions (`KeyError` from `zf.read`, `ParseError` from
`ET.fromstring`) that the caller catches with `except Exception`. -/
def _parse_opf (zf : Archive) (opfPath : String) : Option OpfResult :=
  match zf.read opfPath with
  | none => none
  | some data =>
    match data.xml? with
    | none => none
    | some root =>
      let title : Option String :=
        match root.findDesc (clark nsDc "title") with
        | none => none
        | some tEl =>
          match tEl.text with
          | none => none
          | some txt => if txt = "" then none else some (pyStrip txt)
      let manifest : List (String × String × String) :=
        (root.findallDescChild (clark nsOpf "manifest") (clark nsOpf "item")).foldl
          (fun m item =>
            let mt := (item.getAttr "media-type").getD ""
            match item.getAttr "id", item.getAttr "href" with
            | some i, some h =>
              if i ≠ "" && h ≠ "" then m ++ [(i, h, mt)] else m
            | _, _ => m) []
      let spineIds : List String :=
        (root.findallDescChild (clark nsOpf "spine") (clark nsOpf "itemref")).foldl
          (fun s itemref =>
            match itemref.getAttr "idref" with
            | some idref => if idref ≠ "" then s ++ [idref] else s
            | none => s) []
      some ⟨title, manifest, spineIds⟩

/-- Python `n.lower().endswith((".xhtml", ".html", ".htm"))`. -/
def isHtmlName (s : String) : Bool :=
  endsWithList ".xhtml".data (lowerList s.data) ||
  endsWithList ".html".data (lowerList s.data) ||
  endsWithList ".htm".data (lowerList s.data)

/-- The acceptance test of the spine loop:
`"html" in media_type or href.lower().endswith((".xhtml",".html",".htm"))`. -/
def acceptEntry (href mediaType : String) : Bool :=
  strContains mediaType "html" || isHtmlName href

/-- Source `_collect_xhtml_paths`: spine-ordered resolved paths via the package
document when possible, otherwise the sorted fallback scan. -/
def _collect_xhtml_paths (zf : Archive) (opfPath : Option String) :
    Option String × List String :=
  let viaOpf : Option (Option String × List String) :=
    match opfPath with
    | some op =>
      if op = "" then none  -- Python `if opf_path:` is false for ""
      else
        let res : OpfResult := (_parse_opf zf op).getD ⟨none, [], []⟩
        let xhtmlPaths := res.spineIds.foldl
          (fun acc sid =>
            match dictGet res.manifest sid with
            | none => acc
            | some (href, mt) =>
              if acceptEntry href mt then acc ++ [_join_path op href] else acc) []
        if xhtmlPaths ≠ [] then some (res.title, xhtmlPaths) else none
    | none => none
  match viaOpf with
  | some r => r
  | none =>
    let candidates := zf.namelist.filter isHtmlName
    (none, pySort candidates)

/-- Decode one entry's bytes: utf-8 first, latin-1 with replacement as a
last resort (`_read_text_files` body). -/
def decodeEntry (e : EntryBytes) : String :=
  match e.utf8? with
  | some s => s
  | none => e.latin1

/-- Source `_read_text_files`: read each path, silently skipping missing
members, and decode. -/
def _read_text_files (zf : Archive) (paths : List String) :
    List (String × String) :=
  paths.foldl
    (fun out p =>
      match zf.read p with
      | none => out
      | some raw => out ++ [(p, decodeEntry raw)]) []

/-! ### Minimal HTML → text
The source's `_TextExtractor` subclasses the standard-library streaming
parser `html.parser.HTMLParser`, overriding the three handlers.  The
tokenizer below models the standard-library side: it turns a markup
string into the stream of handler events (start tag / end tag /
self-closing tag / character data), tolerating malformed input — an
unterminated tag at end of input stays in the parser's buffer and
produces no event, a `<` not opening a tag construct is passed through
as data, and comments, declarations and processing instructions produce
no events.  It is total by construction: no input can make it fail. -/

inductive HEvent where
  | startTag (tag : String)
  | endTag (tag : String)
  | startEndTag (tag : String)
  | dataStr (s : String)
deriving DecidableEq

/-- Extract the (lower-cased) tag name from the characters between `<`
(or `</`) and `>`. -/
def tagNameOf (inTag : List Char) : String :=
  (lowerList (inTag.takeWhile
    (fun c => !(c = ' ' || c = '\t' || c = '\n' || c = '\r' || c = '/' || c = '>')))).asString

/-- Is this character able to open a tag name (ASCII letter)? -/
def isTagStart (c : Char) : Bool :=
  ('a' ≤ c && c ≤ 'z') || ('A' ≤ c && c ≤ 'Z')

/-- Tokenizer for the standard-library parser, fuelled so the recursion
is structural; `fuel = l.length` always suffices since every step
consumes at least one character. -/
def tokenizeF : Nat → List Char → List HEvent
  | _, [] => []
  | 0, _ => []
  | fuel + 1, '<' :: rest =>
    match rest with
    | [] => []  -- lone `<` at end of input stays buffered
    | '/' :: rest2 =>
      let inTag := rest2.takeWhile (fun c => c ≠ '>')
      match rest2.dropWhile (fun c => c ≠ '>') with
      | [] => []  -- unterminated end tag: stays buffered, no event
      | _ :: after => HEvent.endTag (tagNameOf inTag) :: tokenizeF fuel after
    | c :: _ =>
      if isTagStart c then
        let inTag := rest.takeWhile (fun ch => ch ≠ '>')
        match rest.dropWhile (fun ch => ch ≠ '>') with
        | [] => []  -- unterminated start tag: stays buffered, no event
        | _ :: after =>
          if inTag.getLast? = some '/' then
            HEvent.startEndTag (tagNameOf inTag) :: tokenizeF fuel after
          else
            HEvent.startTag (tagNameOf inTag) :: tokenizeF fuel after
      else if c = '!' || c = '?' then
        -- comment / declaration / processing instruction: no event
        match rest.dropWhile (fun ch => ch ≠ '>') with
        | [] => []
        | _ :: after => tokenizeF fuel after
      else
        HEvent.dataStr "<" :: tokenizeF fuel rest
  | fuel + 1, c :: cs =>
    if c = '<' then []  -- unreachable: previous arm matched '<'
    else
      HEvent.dataStr ((c :: cs.takeWhile (fun ch => ch ≠ '<')).asString) ::
        tokenizeF fuel (cs.dropWhile (fun ch => ch ≠ '<'))

/-- The event stream of `HTMLParser.feed(s)`. -/
def tokenize (s : String) : List HEvent := tokenizeF s.data.length s.data

/-- The block-level tag set `_BLOCK_TAGS`. -/
def _BLOCK_TAGS : List String :=
  ["p", "div", "section", "article", "header", "footer", "aside",
   "h1", "h2", "h3", "h4", "h5", "h6",
   "ul", "ol", "li",
   "pre", "blockquote",
   "hr", "br",
   "table", "tr"]

/-- Mutable state of a `_TextExtractor` instance: the accumulated output
fragments `_parts` and the open-tag stack `_stack`. -/
structure ExtState where
  parts : List String
  stack : List String
deriving DecidableEq

def ExtState.init : ExtState := ⟨[], []⟩

/-- Source `_TextExtractor.handle_starttag`. -/
def handle_starttag (st : ExtState) (tag : String) : ExtState :=
  let tag := strLower tag
  let st := { st with stack := st.stack ++ [tag] }
  if tag = "br" || tag = "hr" then { st with parts := st.parts ++ ["\n"] }
  else if tag ∈ _BLOCK_TAGS then { st with parts := st.parts ++ ["\n"] }
  else st

/-- Source `_TextExtractor.handle_endtag`: pop the stack down past the nearest
matching open tag (scanning from the top; no match leaves the stack
unchanged), then emit a newline for block-level tags. -/
def handle_endtag (st : ExtState) (tag : String) : ExtState :=
  let tag := strLower tag
  let stack :=
    match st.stack.reverse.findIdx? (fun t => t = tag) with
    | none => st.stack
    | some j => st.stack.take (st.stack.length - 1 - j)
  let st := { st with stack := stack }
  if tag ∈ _BLOCK_TAGS then { st with parts := st.parts ++ ["\n"] } else st

/-- Is a script or style container currently open? -/
def inScriptOrStyle (stack : List String) : Bool :=
  stack.any (fun t => t = "script" || t = "style")

/-- Source `_TextExtractor.handle_data`. -/
def handle_data (st : ExtState) (dat : String) : ExtState :=
  if dat = "" then st
  else if inScriptOrStyle st.stack then st
  else { st with parts := st.parts ++ [dat] }

/-- Dispatch one event to the handlers (`handle_startendtag` defaults to
`handle_starttag` followed by `handle_endtag`). -/
def handleEvent (st : ExtState) : HEvent → ExtState
  | .startTag t => handle_starttag st t
  | .endTag t => handle_endtag st t
  | .startEndTag t => handle_endtag (handle_starttag st t) t
  | .dataStr d => handle_data st d

/-- Models `parser.feed(html)`: run all events. -/
def feedEvents (st : ExtState) (events : List HEvent) : ExtState :=
  events.foldl handleEvent st

/-- Source `_TextExtractor.get_text`: concatenate the fragments and normalise
whitespace. -/
def get_text (st : ExtState) : String :=
  (pyStripList (collapseNL (collapseHS (normEOL
    (String.join st.parts).data)))).asString

/-- Source `_html_to_text`. -/
def _html_to_text (html : String) : String :=
  get_text (feedEvents ExtState.init (tokenize html))

/-! ### Public API -/

/-- The input to the public entry points, as the source distinguishes
it: Python `None` (modelled by the outer `Option`), bytes that
`zipfile.ZipFile` rejects with `BadZipFile`, or bytes forming a valid
zip archive. -/
inductive ZipInput where
  | notZip
  | zip (zf : Archive)

/-- The two fatal exceptions of the public entry points. -/
inductive PyError where
  | valueError (msg : String)
  | badZipFile
deriving DecidableEq

/-- The body of `epub_to_txt` once the archive is open. -/
def convert_txt (zf : Archive) : String :=
  let opfPath := _read_container_rootfile zf
  let files := _read_text_files zf (_collect_xhtml_paths zf opfPath).2
  let parts := files.foldl
    (fun acc pr =>
      let text := _html_to_text pr.2
      if text ≠ "" then acc ++ [text] else acc) []
  let txt := pyStrip ((joinWith "\n\n".data (parts.map String.data)).asString)
  let txt := collapseNLStr txt
  txt ++ (if txt ≠ "" then "\n" else "")

/-- Source `epub_to_txt`: `ValueError` for absent bytes, `BadZipFile` for
non-zip bytes, otherwise the plain-text conversion. -/
def epub_to_txt (epubBytes : Option ZipInput) : Except PyError String :=
  match epubBytes with
  | none => Except.error (PyError.valueError "No EPUB bytes provided")
  | some ZipInput.notZip => Except.error PyError.badZipFile
  | some (ZipInput.zip zf) => Except.ok (convert_txt zf)

/-- Python `re.sub(r"[<>&\"]", "", ·)`: delete the four dangerous characters. -/
def stripTitleChars (s : String) : String :=
  (s.data.filter (fun c => !(c = '<' || c = '>' || c = '&' || c = '"'))).asString

/-- The `safe_title` computation of `epub_to_html`: `(title or "EPUB")`,
stripped, with `[<>&"]` deleted, truncated to 200 characters. -/
def computeSafeTitle (title : Option String) : String :=
  let t0 :=
    match title with
    | some s => if s ≠ "" then s else "EPUB"
    | none => "EPUB"
  ((stripTitleChars (pyStrip t0)).data.take 200).asString

/-- Escape one paragraph: `&`, `<`, `>`, `"` in that order. -/
def escapePara (p : String) : String :=
  strReplace (strReplace (strReplace (strReplace p "&" "&amp;")
    "<" "&lt;") ">" "&gt;") "\"" "&quot;"

/-- The paragraph loop of `epub_to_html`: split the plain text on blank
lines, strip each piece, skip empty ones, escape, turn inner newlines
into `<br/>` and wrap in `<p>`. -/
def buildBlocks (txt : String) : List String :=
  ((splitList "\n\n".data txt.data).map List.asString).foldl
    (fun blocks para =>
      let p := pyStrip para
      if p = "" then blocks
      else
        let p := strReplace (escapePara p) "\n" "<br/>"
        blocks ++ ["<p>" ++ p ++ "</p>"]) []

/-- Python `body = "\n".join(blocks)`. -/
def htmlBody (txt : String) : String :=
  (joinWith ['\n'] ((buildBlocks txt).map String.data)).asString

/-- The fixed document shell of `epub_to_html` (the f-string), with the
escaped title interpolated into both the `title` element and the `h1`
heading, and the paragraph blocks into the body. -/
def htmlShell (safeTitle body : String) : String :=
  "<!doctype html>\n<html lang=\"en\">\n<head>\n  <meta charset=\"utf-8\" />\n  <meta name=\"viewport\" content=\"width=device-width,initial-scale=1\" />\n  <title>" ++
  safeTitle ++
  "</title>\n  <style>\n    body \x7b\n      font-family: Georgia, \"Times New Roman\", Times, serif;\n      margin: 42px;\n      line-height: 1.45;\n      color: #111;\n      max-width: 820px;\n    \x7d\n    h1 \x7b\n      font-family: system-ui, -apple-system, Segoe UI, Roboto, Arial, sans-serif;\n      font-size: 20px;\n      margin: 0 0 18px 0;\n    \x7d\n    p \x7b margin: 0 0 12px 0; \x7d\n    @page \x7b margin: 18mm; \x7d\n  </style>\n</head>\n<body>\n  <h1>" ++
  safeTitle ++
  "</h1>\n  " ++
  body ++
  "\n</body>\n</html>\n"

/-- The body of `epub_to_html` once the archive is open.  (The source
reads the text files a second time and discards them — `_ = files` —
then re-runs the whole plain-text conversion on the same bytes.) -/
def convert_html (zf : Archive) : String :=
  let opfPath := _read_container_rootfile zf
  let title := (_collect_xhtml_paths zf opfPath).1
  let txt := convert_txt zf
  htmlShell (computeSafeTitle title) (htmlBody txt)

/-- Source `epub_to_html`: same fatal errors as `epub_to_txt`, otherwise the
assembled printable document. -/
def epub_to_html (epubBytes : Option ZipInput) : Except PyError String :=
  match epubBytes with
  | none => Except.error (PyError.valueError "No EPUB bytes provided")
  | some ZipInput.notZip => Except.error PyError.badZipFile
  | some (ZipInput.zip zf) => Except.ok (convert_html zf)

/-! ### Statements taken from the spec's wording
`spineOrderedPaths` is the document sequence §4.3 of the spec describes
— spine order, filtered to accepted entries, duplicates preserved — to
be compared against the collector's fold. -/

def spineOrderedPaths (op : String) (res : OpfResult) : List String :=
  res.spineIds.filterMap (fun sid =>
    match dictGet res.manifest sid with
    | none => none
    | some (href, mt) =>
      if acceptEntry href mt then some (_join_path op href) else none)

/-! ### Concrete archives used by the witnesses -/

/-- A well-formed container pointer document. -/
def containerDoc (fullPath : String) : Xml :=
  Xml.elem (clark nsContainer "container") [("version", "1.0")] none
    [Xml.elem (clark nsContainer "rootfiles") [] none
      [Xml.elem (clark nsContainer "rootfile")
        [("full-path", fullPath),
         ("media-type", "application/oebps-package+xml")] none []]]

/-- A package document with one spine that references `ch1` twice. -/
def opfDocSpine : Xml :=
  Xml.elem (clark nsOpf "package") [("version", "2.0")] none
    [Xml.elem (clark nsOpf "metadata") [] none
      [Xml.elem (clark nsDc "title") [] (some "Sample Book") []],
     Xml.elem (clark nsOpf "manifest") [] none
      [Xml.elem (clark nsOpf "item")
        [("id", "c1"), ("href", "ch1.xhtml"),
         ("media-type", "application/xhtml+xml")] none []],
     Xml.elem (clark nsOpf "spine") [] none
      [Xml.elem (clark nsOpf "itemref") [("idref", "c1")] none [],
       Xml.elem (clark nsOpf "itemref") [("idref", "c1")] none []]]

def arcSpine : Archive :=
  ⟨[("META-INF/container.xml", ⟨some (containerDoc "OEBPS/content.opf"), some "", ""⟩),
    ("OEBPS/content.opf", ⟨some opfDocSpine, some "", ""⟩),
    ("OEBPS/ch1.xhtml", ⟨none, some "<p>Hi</p>", ""⟩)]⟩

/-- A package document with a title but an empty spine. -/
def opfDocEmptySpine : Xml :=
  Xml.elem (clark nsOpf "package") [("version", "2.0")] none
    [Xml.elem (clark nsOpf "metadata") [] none
      [Xml.elem (clark nsDc "title") [] (some "My Book") []],
     Xml.elem (clark nsOpf "manifest") [] none
      [Xml.elem (clark nsOpf "item")
        [("id", "cov"), ("href", "cover.png"),
         ("media-type", "image/png")] none []],
     Xml.elem (clark nsOpf "spine") [] none []]

/-- Loose HTML-like files stored in non-sorted order, plus a package
document whose spine is empty. -/
def arcLoose : Archive :=
  ⟨[("b.html", ⟨none, some "<p>B</p>", ""⟩),
    ("META-INF/container.xml", ⟨some (containerDoc "content.opf"), some "", ""⟩),
    ("content.opf", ⟨some opfDocEmptySpine, some "", ""⟩),
    ("a.xhtml", ⟨none, some "<p>A</p>", ""⟩)]⟩

/-- Like `arcLoose` but with a package document in a subdirectory, a
declared title, and no spine-accepted documents. -/
def arcTitleNoSpine : Archive :=
  ⟨[("META-INF/container.xml", ⟨some (containerDoc "OEBPS/content.opf"), some "", ""⟩),
    ("OEBPS/content.opf", ⟨some opfDocEmptySpine, some "", ""⟩)]⟩

/-! ### Predicates used to state the plain-text normalisation claim -/

/-- No two adjacent characters are both horizontal whitespace (so every
run of horizontal whitespace has been collapsed). -/
def noAdjHS : List Char → Bool
  | a :: b :: rest => !(isHSpace a && isHSpace b) && noAdjHS (b :: rest)
  | _ => true

/-- No three consecutive newline characters occur. -/
def noTripleNL : List Char → Bool
  | a :: b :: c :: rest =>
    !(a = '\n' && b = '\n' && c = '\n') && noTripleNL (b :: c :: rest)
  | _ => true

/-- Whitespace characters that the normalisation pipeline eliminates
(horizontal whitespace other than a space, and carriage returns). -/
def isBadWS (c : Char) : Bool :=
  c = '\t' || c = '\r' || c = '\x0c' || c = '\x0b'

/-- Number of leading newline characters. -/
def leadNL : List Char → Nat
  | '\n' :: rest => leadNL rest + 1
  | _ => 0

/-- The non-empty extracted text blocks of an archive, one per resolved
document, in order (spec §4.4). -/
def extractedBlocks (zf : Archive) : List String :=
  ((_read_text_files zf
      (_collect_xhtml_paths zf (_read_container_rootfile zf)).2).map
    (fun pr => _html_to_text pr.2)).filter (fun t => t ≠ "")

/-- The final plain-text assembly (spec §4.4): join the blocks with a
blank-line separator, strip, collapse newline runs of three or more to
two, and append exactly one trailing newline when non-empty. -/
def assembleTxt (blocks : List String) : String :=
  let txt := pyStrip ((joinWith "\n\n".data (blocks.map String.data)).asString)
  let txt := collapseNLStr txt
  txt ++ (if txt ≠ "" then "\n" else "")

/-- The final stage of the assembly in isolation: strip, collapse
newline runs, append one trailing newline when non-empty. -/
def finalizeTxt (j : List Char) : String :=
  let txt := collapseNLStr (pyStrip j.asString)
  txt ++ (if txt ≠ "" then "\n" else "")

/-! ## Helper lemmas -/

theorem data_asString (l : List Char) : (l.asString).data = l := rfl

/-- The read-and-decode fold of `_read_text_files` as a `filterMap`. -/
theorem read_text_files_foldl (zf : Archive) :
    ∀ (paths : List String) (acc : List (String × String)),
      paths.foldl
        (fun out p =>
          match zf.read p with
          | none => out
          | some raw => out ++ [(p, decodeEntry raw)]) acc
      = acc ++ paths.filterMap
          (fun p => (zf.read p).map (fun raw => (p, decodeEntry raw))) := by
  intro paths
  induction paths with
  | nil => intro acc; simp
  | cons p ps ih =>
    intro acc
    simp only [List.foldl_cons, List.filterMap_cons]
    cases h : zf.read p with
    | none => simp [h, ih]
    | some raw => simp [h, ih]

/-! ## Claim theorems -/

/-- C1: `epub_to_txt` and `epub_to_html` raise the input-validation
error (`ValueError`) exactly when the supplied bytes are absent, raise
the archive-format error (`BadZipFile`) exactly when the bytes are not a
valid zip archive, and on every valid zip archive return a string
without raising. -/
theorem epub_entry_points_error_contract :
    (∀ input : Option ZipInput,
      ((∃ m, epub_to_txt input = Except.error (PyError.valueError m)) ↔ input = none) ∧
      ((∃ m, epub_to_html input = Except.error (PyError.valueError m)) ↔ input = none) ∧
      ((epub_to_txt input = Except.error PyError.badZipFile) ↔
        input = some ZipInput.notZip) ∧
      ((epub_to_html input = Except.error PyError.badZipFile) ↔
        input = some ZipInput.notZip)) ∧
    (∀ zf : Archive,
      epub_to_txt (some (ZipInput.zip zf)) = Except.ok (convert_txt zf) ∧
      epub_to_html (some (ZipInput.zip zf)) = Except.ok (convert_html zf)) := by
  constructor
  · intro input
    rcases input with _ | (_ | zf) <;> simp [epub_to_txt, epub_to_html]
  · intro zf
    exact ⟨rfl, rfl⟩

/-- C4: the markup-to-text extractor is total — it returns a string on
every input, an unmatched end tag leaves the open-tag stack unchanged
(tolerant recovery, no failure), and the unbalanced input
`<div><p>X</div>` extracts to `X`. -/
theorem html_to_text_total_and_tolerant :
    (∀ s : String, ∃ t : String, _html_to_text s = t) ∧
    (∀ (st : ExtState) (tag : String), strLower tag ∉ st.stack →
      (handle_endtag st tag).stack = st.stack) ∧
    _html_to_text "<div><p>X</div>" = "X" := by
  refine ⟨fun s => ⟨_html_to_text s, rfl⟩, ?_, by decide⟩
  intro st tag h
  unfold handle_endtag
  have hn : List.findIdx? (fun t => t = strLower tag) st.stack.reverse = none := by
    rw [List.findIdx?_eq_none_iff]
    intro x hx
    simp only [decide_eq_false_iff_not]
    intro hx2
    exact h (hx2 ▸ List.mem_reverse.mp hx)
  simp only [hn]
  by_cases hb : strLower tag ∈ _BLOCK_TAGS <;> simp [hb]

/-- C4 witness: the tolerant-recovery clause applied to a concrete
unmatched end tag. -/
theorem html_to_text_total_and_tolerant_witness :
    (handle_endtag ⟨["x"], ["div"]⟩ "p").stack = ["div"] :=
  html_to_text_total_and_tolerant.2.1 ⟨["x"], ["div"]⟩ "p" (by decide)

/-- C6: character data arriving while a `script` or `style` element is
open on the stack is discarded (the extractor state is unchanged), and
`<script>ignored()</script>Visible` extracts exactly `Visible`. -/
theorem script_style_data_discarded :
    (∀ (st : ExtState) (d : String), inScriptOrStyle st.stack = true →
      handle_data st d = st) ∧
    _html_to_text "<script>ignored()</script>Visible" = "Visible" := by
  refine ⟨?_, by decide⟩
  intro st d h
  unfold handle_data
  by_cases hd : d = "" <;> simp [hd, h]

/-- C6 witness: data inside an open `script` element is dropped. -/
theorem script_style_data_discarded_witness :
    handle_data ⟨["x"], ["script"]⟩ "ignored()" = ⟨["x"], ["script"]⟩ :=
  script_style_data_discarded.1 ⟨["x"], ["script"]⟩ "ignored()" (by decide)

/-- C8: the escaped title contains none of `<`, `>`, `&`, `"`, is at
most 200 characters long, is what `epub_to_html` embeds in both the
`title` element and the heading of the fixed shell, and the title
`<Evil & "Title">` of the spec becomes `Evil  Title`. -/
theorem title_escaping_safe :
    (∀ t : Option String,
      (∀ c ∈ (computeSafeTitle t).data, c ≠ '<' ∧ c ≠ '>' ∧ c ≠ '&' ∧ c ≠ '"') ∧
      (computeSafeTitle t).data.length ≤ 200) ∧
    (∀ zf : Archive, convert_html zf =
      htmlShell
        (computeSafeTitle (_collect_xhtml_paths zf (_read_container_rootfile zf)).1)
        (htmlBody (convert_txt zf))) ∧
    computeSafeTitle (some "<Evil & \"Title\">") = "Evil  Title" := by
  refine ⟨?_, fun zf => rfl, by decide⟩
  intro t
  have hdata : (computeSafeTitle t).data =
      ((pyStrip (match t with
        | some s => if s ≠ "" then s else "EPUB"
        | none => "EPUB")).data.filter
        (fun c => !(c = '<' || c = '>' || c = '&' || c = '"'))).take 200 := rfl
  constructor
  · intro c hc
    rw [hdata] at hc
    have := (List.mem_filter.mp (List.mem_of_mem_take hc)).2
    simp only [Bool.not_eq_true', Bool.or_eq_false_iff, decide_eq_false_iff_not] at this
    exact ⟨this.1.1.1, this.1.1.2, this.1.2, this.2⟩
  · rw [hdata]
    exact List.length_take_le 200 _

/-- C9: reading and decoding the resolved documents never fails — the
result is exactly the in-order `filterMap` that skips paths missing from
the archive, and each present entry decodes to its strict UTF-8 decoding
when that succeeds and to its lossy latin-1 decoding otherwise. -/
theorem read_text_files_never_fails :
    (∀ (zf : Archive) (paths : List String),
      _read_text_files zf paths =
        paths.filterMap
          (fun p => (zf.read p).map (fun raw => (p, decodeEntry raw)))) ∧
    (∀ e : EntryBytes, decodeEntry e = e.utf8?.getD e.latin1) := by
  constructor
  · intro zf paths
    simpa using read_text_files_foldl zf paths []
  · intro e
    cases h : e.utf8? <;> simp [decodeEntry, h]

/-- Two strings with the same character data are equal. -/
theorem strExt {a b : String} (h : a.data = b.data) : a = b := by
  cases a; cases b; exact congrArg String.mk h

theorem uintLtIff {a b : UInt32} : a < b ↔ a.toNat < b.toNat := Iff.rfl

theorem uintEqOfNotLt {a b : UInt32} (h1 : ¬ a < b) (h2 : ¬ b < a) : a = b := by
  apply UInt32.ext
  rw [uintLtIff] at h1
  rw [uintLtIff] at h2
  omega

theorem uintLtTrans {a b c : UInt32} (h1 : a < b) (h2 : b < c) : a < c := by
  rw [uintLtIff] at *
  omega

theorem uintLtAsymm {a b : UInt32} (h1 : a < b) : ¬ b < a := by
  rw [uintLtIff] at *
  omega

theorem lexLe_total : ∀ a b : List Char, lexLe a b = true ∨ lexLe b a = true := by
  intro a
  induction a with
  | nil => intro b; left; rfl
  | cons x xs ih =>
    intro b
    cases b with
    | nil => right; rfl
    | cons y ys =>
      by_cases hxy : x.val < y.val
      · left; simp [lexLe, hxy]
      · by_cases hyx : y.val < x.val
        · right; simp [lexLe, hyx]
        · rcases ih ys with h | h
          · left; simp [lexLe, hxy, hyx, h]
          · right; simp [lexLe, hxy, hyx, h]

theorem lexLe_antisymm : ∀ a b : List Char,
    lexLe a b = true → lexLe b a = true → a = b := by
  intro a
  induction a with
  | nil =>
    intro b _ hba
    cases b with
    | nil => rfl
    | cons y ys => simp [lexLe] at hba
  | cons x xs ih =>
    intro b hab hba
    cases b with
    | nil => simp [lexLe] at hab
    | cons y ys =>
      by_cases hxy : x.val < y.val
      · simp [lexLe, hxy, uintLtAsymm hxy] at hba
      · by_cases hyx : y.val < x.val
        · simp [lexLe, hxy, hyx] at hab
        · have hxs : lexLe xs ys = true := by simpa [lexLe, hxy, hyx] using hab
          have hys : lexLe ys xs = true := by simpa [lexLe, hxy, hyx] using hba
          have hv : x.val = y.val := uintEqOfNotLt hxy hyx
          have hc : x = y := Char.ext hv
          rw [hc, ih ys hxs hys]

theorem lexLe_trans : ∀ a b c : List Char,
    lexLe a b = true → lexLe b c = true → lexLe a c = true := by
  intro a
  induction a with
  | nil => intro b c _ _; rfl
  | cons x xs ih =>
    intro b c hab hbc
    cases b with
    | nil => simp [lexLe] at hab
    | cons y ys =>
      cases c with
      | nil => simp [lexLe] at hbc
      | cons z zs =>
        by_cases hxy : x.val < y.val
        · by_cases hyz : y.val < z.val
          · simp [lexLe, uintLtTrans hxy hyz]
          · by_cases hzy : z.val < y.val
            · simp [lexLe, hyz, hzy] at hbc
            · have hyzv : y.val = z.val := uintEqOfNotLt hyz hzy
              simp [lexLe, hyzv ▸ hxy]
        · by_cases hyx : y.val < x.val
          · simp [lexLe, hxy, hyx] at hab
          · have hxyv : x.val = y.val := uintEqOfNotLt hxy hyx
            have hxs : lexLe xs ys = true := by simpa [lexLe, hxy, hyx] using hab
            by_cases hyz : y.val < z.val
            · simp [lexLe, hxyv ▸ hyz]
            · by_cases hzy : z.val < y.val
              · simp [lexLe, hyz, hzy] at hbc
              · have hys : lexLe ys zs = true := by simpa [lexLe, hyz, hzy] using hbc
                have hyzv : y.val = z.val := uintEqOfNotLt hyz hzy
                have hxzv : x.val = z.val := hxyv.trans hyzv
                have hlt : ¬ x.val < z.val := by rw [hxzv]; exact fun hh => uintLtAsymm hh hh
                have hlt2 : ¬ z.val < x.val := by rw [hxzv]; exact fun hh => uintLtAsymm hh hh
                simp [lexLe, hlt, hlt2, ih ys zs hxs hys]

theorem strLeB_total (a b : String) : strLeB a b = true ∨ strLeB b a = true :=
  lexLe_total a.data b.data

theorem strLeB_antisymm {a b : String}
    (h1 : strLeB a b = true) (h2 : strLeB b a = true) : a = b :=
  strExt (lexLe_antisymm a.data b.data h1 h2)

theorem strLeB_trans {a b c : String}
    (h1 : strLeB a b = true) (h2 : strLeB b c = true) : strLeB a c = true :=
  lexLe_trans a.data b.data c.data h1 h2

instance : IsAntisymm String (fun a b => strLeB a b = true) :=
  ⟨fun _ _ => strLeB_antisymm⟩

theorem insertStr_perm (x : String) :
    ∀ l : List String, (insertStr x l).Perm (x :: l) := by
  intro l
  induction l with
  | nil => exact List.Perm.refl _
  | cons y ys ih =>
    by_cases h : strLeB x y
    · simp [insertStr, h]
    · simp only [insertStr, h, if_neg]
      exact (ih.cons y).trans (List.Perm.swap x y ys)

theorem pySort_perm : ∀ l : List String, (pySort l).Perm l := by
  intro l
  induction l with
  | nil => exact List.Perm.refl _
  | cons x xs ih =>
    exact (insertStr_perm x (pySort xs)).trans (ih.cons x)

theorem insertStr_sorted (x : String) :
    ∀ l : List String, l.Pairwise (fun a b => strLeB a b = true) →
      (insertStr x l).Pairwise (fun a b => strLeB a b = true) := by
  intro l
  induction l with
  | nil => intro _; simp [insertStr]
  | cons y ys ih =>
    intro hs
    rcases List.pairwise_cons.mp hs with ⟨hy, hys⟩
    by_cases h : strLeB x y
    · simp only [insertStr, h, if_pos]
      refine List.pairwise_cons.mpr ⟨?_, hs⟩
      intro z hz
      rcases List.mem_cons.mp hz with rfl | hz
      · exact h
      · exact strLeB_trans h (hy z hz)
    · simp only [insertStr, h, if_neg]
      refine List.pairwise_cons.mpr ⟨?_, ih hys⟩
      intro z hz
      have hz2 := (insertStr_perm x ys).mem_iff.mp hz
      rcases List.mem_cons.mp hz2 with rfl | hz2
      · rcases strLeB_total y z with hyx | hxy2
        · exact hyx
        · exact absurd hxy2 h
      · exact hy z hz2

theorem pySort_sorted :
    ∀ l : List String, (pySort l).Pairwise (fun a b => strLeB a b = true) := by
  intro l
  induction l with
  | nil => simp [pySort]
  | cons x xs ih => exact insertStr_sorted x (pySort xs) ih

/-- Sorting is invariant under permutation of the input: the sorted
permutation of a list under a total antisymmetric order is unique. -/
theorem pySort_perm_eq {l l' : List String} (h : l.Perm l') :
    pySort l = pySort l' := by
  refine List.eq_of_perm_of_sorted ?_ (pySort_sorted l) (pySort_sorted l')
  exact ((pySort_perm l).trans h).trans (pySort_perm l').symm

/-- Every segment that `normSegs` emits is a real path segment: never
`..`, `.` or empty. -/
theorem normSegs_clean :
    ∀ (segs acc : List String),
      (∀ p ∈ acc, p ≠ ".." ∧ p ≠ "." ∧ p ≠ "") →
      ∀ p ∈ normSegs acc segs, p ≠ ".." ∧ p ≠ "." ∧ p ≠ "" := by
  intro segs
  induction segs with
  | nil =>
    intro acc h p hp
    exact h p (by simpa [normSegs] using hp)
  | cons q rest ih =>
    intro acc h p hp
    simp only [normSegs] at hp
    by_cases h1 : (q = "" || q = ".") = true
    · rw [if_pos h1] at hp
      exact ih acc h p hp
    · rw [if_neg h1] at hp
      by_cases h2 : q = ".."
      · rw [if_pos h2] at hp
        exact ih acc.dropLast
          (fun x hx => h x ((List.dropLast_sublist acc).subset hx)) p hp
      · rw [if_neg h2] at hp
        refine ih (acc ++ [q]) ?_ p hp
        intro x hx
        rcases List.mem_append.mp hx with hx | hx
        · exact h x hx
        · have hxq : x = q := by simpa using hx
          subst hxq
          simp only [Bool.or_eq_true, decide_eq_true_eq, not_or] at h1
          exact ⟨h2, h1.2, h1.1⟩

/-- C5 counterexample: when the package document sits at the archive
root (its path has no `/`), `_join_path` returns the href verbatim — a
`.` segment is not removed (first two conjuncts) and a leading `..`
survives into the resolved path (third conjunct), contradicting the
claim's unconditional normalisation. -/
theorem join_path_counterexample :
    _join_path "content.opf" "./ch1.xhtml" = "./ch1.xhtml" ∧
    _join_path "content.opf" "./ch1.xhtml" ≠ "ch1.xhtml" ∧
    _join_path "content.opf" "../secret.html" = "../secret.html" := by
  decide

/-- C5 amended: when the package-document path contains a `/`,
`_join_path` resolves the href against the containing directory with
`.`/`..`/empty-segment normalisation, the result is a join of segments
none of which is `..`, `.` or empty (so it cannot escape above the
archive root), and a `..` with no remaining parent segment is a no-op
pop.  (When the base path is empty or has no `/`, the href is returned
unchanged.) -/
theorem join_path_normalizes_with_dir :
    ∀ base rel : String, strContains base "/" = true →
      (_join_path base rel =
        joinSlash (normSegs []
          (splitSlash (joinSlash (splitSlash base).dropLast ++ "/" ++ rel)))) ∧
      (∃ parts, _join_path base rel = joinSlash parts ∧
        ∀ p ∈ parts, p ≠ ".." ∧ p ≠ "." ∧ p ≠ "") ∧
      (∀ rest, normSegs [] (".." :: rest) = normSegs [] rest) ∧
      (∀ (acc : List String) (q : String) (rest : List String),
        normSegs (acc ++ [q]) (".." :: rest) = normSegs acc rest) := by
  intro base rel h
  have hbase : ¬ base = "" := by
    intro h0
    rw [h0] at h
    simp [strContains, hasSubList, List.isEmpty] at h
  have heq : _join_path base rel =
      joinSlash (normSegs []
        (splitSlash (joinSlash (splitSlash base).dropLast ++ "/" ++ rel))) := by
    rw [_join_path, if_neg hbase, if_neg (by simp [h])]
  refine ⟨heq, ⟨_, heq, normSegs_clean _ [] (by simp)⟩, ?_, ?_⟩
  · intro rest
    simp [normSegs]
  · intro acc q rest
    simp [normSegs]

/-- C5 witness: the amended normalisation applied to a concrete base
and href containing `.` and `..` segments. -/
theorem join_path_normalizes_with_dir_witness :
    _join_path "OEBPS/content.opf" "sub/.././ch1.xhtml" =
      joinSlash (normSegs []
        (splitSlash (joinSlash (splitSlash "OEBPS/content.opf").dropLast ++
          "/" ++ "sub/.././ch1.xhtml"))) :=
  (join_path_normalizes_with_dir "OEBPS/content.opf" "sub/.././ch1.xhtml"
    (by decide)).1

/-- The spine fold of `_collect_xhtml_paths` as a `filterMap`. -/
theorem spine_foldl_filterMap (op : String) (m : List (String × String × String)) :
    ∀ (ids : List String) (acc : List String),
      ids.foldl
        (fun acc sid =>
          match dictGet m sid with
          | none => acc
          | some (href, mt) =>
            if acceptEntry href mt then acc ++ [_join_path op href] else acc) acc
      = acc ++ ids.filterMap
          (fun sid =>
            match dictGet m sid with
            | none => none
            | some (href, mt) =>
              if acceptEntry href mt then some (_join_path op href) else none) := by
  intro ids
  induction ids with
  | nil => intro acc; simp
  | cons i is ih =>
    intro acc
    simp only [List.foldl_cons, List.filterMap_cons]
    cases h : dictGet m i with
    | none => simp [h, ih]
    | some pr =>
      rcases pr with ⟨href, mt⟩
      by_cases ha : acceptEntry href mt <;> simp [h, ha, ih]

/-- C2: when the package document parses and its spine accepts at least
one HTML-like manifest entry, the collector returns exactly the
spine-ordered resolved paths (duplicates preserved) together with the
parsed title — never a sorted or reordered list. -/
theorem collect_uses_spine_order :
    ∀ (zf : Archive) (op : String) (res : OpfResult),
      op ≠ "" →
      _parse_opf zf op = some res →
      spineOrderedPaths op res ≠ [] →
      _collect_xhtml_paths zf (some op) = (res.title, spineOrderedPaths op res) := by
  intro zf op res hop hparse hne
  rw [_collect_xhtml_paths]
  simp only [hparse, Option.getD_some]
  rw [if_neg hop]
  rw [show (res.spineIds.foldl
      (fun acc sid =>
        match dictGet res.manifest sid with
        | none => acc
        | some (href, mt) =>
          if acceptEntry href mt then acc ++ [_join_path op href] else acc) [])
    = spineOrderedPaths op res from by
      simpa [spineOrderedPaths] using spine_foldl_filterMap op res.manifest res.spineIds []]
  rw [if_pos hne]

/-- C2 witness: an archive whose spine references the same chapter
twice resolves to that chapter's path twice, in spine order. -/
theorem collect_uses_spine_order_witness :
    _collect_xhtml_paths arcSpine (some "OEBPS/content.opf") =
      (some "Sample Book", ["OEBPS/ch1.xhtml", "OEBPS/ch1.xhtml"]) :=
  (collect_uses_spine_order arcSpine "OEBPS/content.opf"
      ⟨some "Sample Book", [("c1", "ch1.xhtml", "application/xhtml+xml")], ["c1", "c1"]⟩
      (by decide) (by decide) (by decide)).trans (by decide)

/-- Shared helper: under any of the fallback conditions the collector
returns `none` and the sorted scan. -/
theorem collect_fallback_eq (zf : Archive) (opfIn : Option String)
    (h : opfIn = none ∨ ∃ op, opfIn = some op ∧
      (op = "" ∨ spineOrderedPaths op ((_parse_opf zf op).getD ⟨none, [], []⟩) = [])) :
    _collect_xhtml_paths zf opfIn = (none, pySort (zf.namelist.filter isHtmlName)) := by
  rcases h with rfl | ⟨op, rfl, hop⟩
  · rfl
  · have hfold : ∀ res : OpfResult,
        (res.spineIds.foldl
          (fun acc sid =>
            match dictGet res.manifest sid with
            | none => acc
            | some (href, mt) =>
              if acceptEntry href mt then acc ++ [_join_path op href] else acc) [])
        = spineOrderedPaths op res := fun res => by
      simpa [spineOrderedPaths] using spine_foldl_filterMap op res.manifest res.spineIds []
    rcases hop with rfl | hempty
    · rfl
    · by_cases hop0 : op = ""
      · subst hop0; rfl
      · rw [_collect_xhtml_paths]
        simp only [if_neg hop0, hfold, hempty]
        simp

/-- C3: whenever the preferred spine path is unavailable — no package
pointer, an empty pointer path, a package parse failure (the parse
result defaults to empty), or zero accepted spine entries — the
collector returns title `none` and exactly the lexicographically sorted
list of the archive's HTML-like entry names; that sorted list is
independent of the archive's iteration order. -/
theorem collect_fallback_sorted :
    ∀ (zf : Archive) (opfIn : Option String),
      (opfIn = none ∨ ∃ op, opfIn = some op ∧
        (op = "" ∨ spineOrderedPaths op ((_parse_opf zf op).getD ⟨none, [], []⟩) = [])) →
      (_collect_xhtml_paths zf opfIn = (none, pySort (zf.namelist.filter isHtmlName)) ∧
       (pySort (zf.namelist.filter isHtmlName)).Pairwise (fun a b => strLeB a b = true) ∧
       ∀ zf' : Archive, zf.entries.Perm zf'.entries →
         pySort (zf.namelist.filter isHtmlName) =
           pySort (zf'.namelist.filter isHtmlName)) := by
  intro zf opfIn h
  refine ⟨collect_fallback_eq zf opfIn h, pySort_sorted _, ?_⟩
  intro zf' hperm
  exact pySort_perm_eq ((hperm.map Prod.fst).filter isHtmlName)

/-- C3 witness: an archive with an empty-spine package document and
loose files stored as `b.html`, …, `a.xhtml` falls back to the sorted
scan `["a.xhtml", "b.html"]`. -/
theorem collect_fallback_sorted_witness :
    _collect_xhtml_paths arcLoose (some "content.opf") = (none, ["a.xhtml", "b.html"]) :=
  ((collect_fallback_sorted arcLoose (some "content.opf")
      (Or.inr ⟨"content.opf", rfl, Or.inr (by decide)⟩)).1).trans (by decide)

/-- C10: when the package document parses and declares a title but the
preferred spine path accepts zero documents, the fallback discards the
parsed title — the collector returns title `none` — so `epub_to_html`
embeds the placeholder `EPUB`. -/
theorem fallback_discards_parsed_title :
    ∀ (zf : Archive) (op : String) (res : OpfResult),
      _read_container_rootfile zf = some op →
      _parse_opf zf op = some res →
      res.title.isSome →
      spineOrderedPaths op res = [] →
      (_collect_xhtml_paths zf (some op)).1 = none ∧
      convert_html zf = htmlShell "EPUB" (htmlBody (convert_txt zf)) := by
  intro zf op res hroot hparse _htitle hempty
  have hcol : _collect_xhtml_paths zf (some op) =
      (none, pySort (zf.namelist.filter isHtmlName)) := by
    refine collect_fallback_eq zf (some op) (Or.inr ⟨op, rfl, Or.inr ?_⟩)
    rw [hparse]
    exact hempty
  constructor
  · rw [hcol]
  · have hch : convert_html zf =
        htmlShell
          (computeSafeTitle (_collect_xhtml_paths zf (_read_container_rootfile zf)).1)
          (htmlBody (convert_txt zf)) := rfl
    rw [hch, hroot, hcol]
    have : computeSafeTitle none = "EPUB" := by decide
    rw [this]

/-- C10 witness: a package document with title `My Book` but no
spine-accepted documents produces the `EPUB` placeholder shell. -/
theorem fallback_discards_parsed_title_witness :
    (_collect_xhtml_paths arcTitleNoSpine (some "OEBPS/content.opf")).1 = none ∧
    convert_html arcTitleNoSpine =
      htmlShell "EPUB" (htmlBody (convert_txt arcTitleNoSpine)) :=
  fallback_discards_parsed_title arcTitleNoSpine "OEBPS/content.opf"
    ⟨some "My Book", [("cov", "cover.png", "image/png")], []⟩
    (by decide) (by decide) (by decide) (by decide)

theorem noAdjHS_cons (a : Char) (l : List Char)
    (hl : noAdjHS l = true)
    (hhead : ∀ b, l.head? = some b → (isHSpace a && isHSpace b) = false) :
    noAdjHS (a :: l) = true := by
  cases l with
  | nil => rfl
  | cons b rest =>
    rw [noAdjHS, Bool.and_eq_true]
    exact ⟨by rw [hhead b rfl]; rfl, hl⟩

theorem noAdjHS_destruct {a : Char} {l : List Char}
    (h : noAdjHS (a :: l) = true) :
    noAdjHS l = true ∧ ∀ b, l.head? = some b → (isHSpace a && isHSpace b) = false := by
  cases l with
  | nil => exact ⟨rfl, by intro b hb; cases hb⟩
  | cons b rest =>
    rw [noAdjHS, Bool.and_eq_true] at h
    refine ⟨h.2, ?_⟩
    intro b' hb'
    have hbb : b = b' := by simpa using hb'
    subst hbb
    have h1 := h.1
    cases hv : (isHSpace a && isHSpace b) with
    | false => rfl
    | true => rw [hv] at h1; exact absurd h1 (by decide)

theorem noAdjHS_append : ∀ (l₁ l₂ : List Char),
    noAdjHS l₁ = true → noAdjHS l₂ = true →
    (∀ x y, l₁.getLast? = some x → l₂.head? = some y →
      (isHSpace x && isHSpace y) = false) →
    noAdjHS (l₁ ++ l₂) = true := by
  intro l₁
  induction l₁ with
  | nil => intro l₂ _ h2 _; simpa using h2
  | cons a rest ih =>
    intro l₂ h1 h2 hj
    rcases noAdjHS_destruct h1 with ⟨hrest, hhead⟩
    cases rest with
    | nil =>
      show noAdjHS (a :: l₂) = true
      refine noAdjHS_cons a l₂ h2 ?_
      intro b hb
      exact hj a b rfl hb
    | cons b rest2 =>
      rw [List.cons_append]
      refine noAdjHS_cons a (b :: rest2 ++ l₂) (ih l₂ hrest h2 ?_) ?_
      · intro x y hx hy
        refine hj x y ?_ hy
        rw [List.getLast?_cons_cons]
        exact hx
      · intro c hc
        have hcb : b = c := by simpa using hc
        subst hcb
        exact hhead b rfl

theorem noAdjHS_reverse : ∀ l, noAdjHS l = true → noAdjHS l.reverse = true := by
  intro l
  induction l with
  | nil => intro _; rfl
  | cons a rest ih =>
    intro h
    rcases noAdjHS_destruct h with ⟨hrest, hhead⟩
    rw [List.reverse_cons]
    refine noAdjHS_append rest.reverse [a] (ih hrest) rfl ?_
    intro x y hx hy
    have hy2 : a = y := by simpa using hy
    subst hy2
    rw [List.getLast?_reverse] at hx
    rw [Bool.and_comm]
    exact hhead x hx

theorem noAdjHS_dropWhile (p : Char → Bool) :
    ∀ l, noAdjHS l = true → noAdjHS (l.dropWhile p) = true := by
  intro l
  induction l with
  | nil => intro h; exact h
  | cons a rest ih =>
    intro h
    rcases noAdjHS_destruct h with ⟨hrest, _⟩
    rw [List.dropWhile_cons]
    by_cases hp : p a = true
    · rw [if_pos hp]
      exact ih hrest
    · rw [if_neg hp]
      exact h

theorem noAdjHS_pyStripList (l : List Char) (h : noAdjHS l = true) :
    noAdjHS (pyStripList l) = true :=
  noAdjHS_reverse _ (noAdjHS_dropWhile _ _ (noAdjHS_reverse _ (noAdjHS_dropWhile _ _ h)))

theorem mem_pyStripList {c : Char} {l : List Char} (h : c ∈ pyStripList l) : c ∈ l := by
  rw [pyStripList] at h
  have h1 := List.mem_reverse.mp h
  have h2 := (List.dropWhile_sublist _).subset h1
  have h3 := List.mem_reverse.mp h2
  exact (List.dropWhile_sublist _).subset h3

theorem head?_dropWhile_neg (p : Char → Bool) :
    ∀ (l : List Char) (c : Char), (l.dropWhile p).head? = some c → p c = false := by
  intro l
  induction l with
  | nil => intro c hc; cases hc
  | cons a rest ih =>
    intro c hc
    rw [List.dropWhile_cons] at hc
    by_cases hp : p a = true
    · rw [if_pos hp] at hc
      exact ih c hc
    · rw [if_neg hp] at hc
      have hca : a = c := by simpa using hc
      subst hca
      simpa using hp

theorem getLast?_pyStripList_not_space :
    ∀ (l : List Char) (c : Char),
      (pyStripList l).getLast? = some c → pyIsSpace c = false := by
  intro l c h
  rw [pyStripList, List.getLast?_reverse] at h
  exact head?_dropWhile_neg pyIsSpace _ c h

theorem normEOL_no_cr : ∀ l, ∀ c ∈ normEOL l, c ≠ '\r' := by
  intro l
  induction l using normEOL.induct with
  | case1 => intro c hc; cases hc
  | case2 cs ih =>
    intro c hc
    rw [normEOL.eq_2] at hc
    rcases List.mem_cons.mp hc with rfl | hc
    · decide
    · exact ih c hc
  | case3 cs h ih =>
    intro c hc
    rw [normEOL.eq_3 cs h] at hc
    rcases List.mem_cons.mp hc with rfl | hc
    · decide
    · exact ih c hc
  | case4 c' cs h1 h2 ih =>
    intro c hc
    rw [normEOL.eq_4 c' cs h1 h2] at hc
    rcases List.mem_cons.mp hc with rfl | hc
    · exact fun hcr => h2 hcr
    · exact ih c hc

theorem collapseHSAux_mem : ∀ (l : List Char) (b : Bool) (c : Char),
    c ∈ collapseHSAux b l → c = ' ' ∨ (c ∈ l ∧ isHSpace c = false) := by
  intro l
  induction l with
  | nil => intro b c hc; cases hc
  | cons a rest ih =>
    intro b c hc
    rw [collapseHSAux] at hc
    by_cases ha : isHSpace a = true
    · rw [if_pos ha] at hc
      by_cases hb : b = true
      · rw [if_pos hb] at hc
        rcases ih true c hc with h | h
        · exact Or.inl h
        · exact Or.inr ⟨List.mem_cons_of_mem a h.1, h.2⟩
      · rw [if_neg hb] at hc
        rcases List.mem_cons.mp hc with rfl | hc2
        · exact Or.inl rfl
        · rcases ih true c hc2 with h | h
          · exact Or.inl h
          · exact Or.inr ⟨List.mem_cons_of_mem a h.1, h.2⟩
    · rw [if_neg ha] at hc
      rcases List.mem_cons.mp hc with rfl | hc2
      · exact Or.inr ⟨List.mem_cons_self _ _, by simpa using ha⟩
      · rcases ih false c hc2 with h | h
        · exact Or.inl h
        · exact Or.inr ⟨List.mem_cons_of_mem a h.1, h.2⟩

theorem collapseHSAux_noAdj : ∀ (l : List Char) (b : Bool),
    noAdjHS (collapseHSAux b l) = true ∧
    (b = true → ∀ c, (collapseHSAux b l).head? = some c → isHSpace c = false) := by
  intro l
  induction l with
  | nil =>
    intro b
    exact ⟨rfl, by intro _ c hc; cases hc⟩
  | cons a rest ih =>
    intro b
    rw [collapseHSAux]
    by_cases ha : isHSpace a = true
    · rw [if_pos ha]
      by_cases hb : b = true
      · rw [if_pos hb]
        refine ⟨(ih true).1, ?_⟩
        intro _ c hc
        exact (ih true).2 rfl c hc
      · rw [if_neg hb]
        constructor
        · refine noAdjHS_cons ' ' _ (ih true).1 ?_
          intro d hd
          have hd2 := (ih true).2 rfl d hd
          simp [hd2]
        · intro hb2
          exact absurd hb2 hb
    · rw [if_neg ha]
      constructor
      · refine noAdjHS_cons a _ (ih false).1 ?_
        intro d hd
        simp [ha]
      · intro _ c hc
        have hca : a = c := by simpa using hc
        subst hca
        simpa using ha

theorem leadNL_cons_ne (c : Char) (t : List Char) (hc : c ≠ '\n') :
    leadNL (c :: t) = 0 := by
  rw [leadNL.eq_2]
  intro rest h
  injection h with h1 _
  exact hc h1

theorem noTripleNL_cons (a : Char) (l : List Char)
    (hl : noTripleNL l = true)
    (hlead : a = '\n' → leadNL l ≤ 1) :
    noTripleNL (a :: l) = true := by
  match l with
  | [] => rfl
  | [b] => rfl
  | b :: c :: rest =>
    rw [noTripleNL, Bool.and_eq_true]
    refine ⟨?_, hl⟩
    by_cases hA : a = '\n'
    · have h2 := hlead hA
      by_cases hB : b = '\n'
      · by_cases hC : c = '\n'
        · exfalso
          subst hB; subst hC
          rw [leadNL, leadNL] at h2
          omega
        · simp [hC]
      · simp [hB]
    · simp [hA]

theorem collapseNLAux_noTriple : ∀ (l : List Char) (n : Nat),
    noTripleNL (collapseNLAux n l) = true ∧
    leadNL (collapseNLAux n l) + min n 2 ≤ 2 := by
  intro l
  induction l with
  | nil =>
    intro n
    refine ⟨rfl, ?_⟩
    have : leadNL (collapseNLAux n []) = 0 := rfl
    rw [this]
    omega
  | cons c cs ih =>
    intro n
    rw [collapseNLAux]
    by_cases hc : c = '\n'
    · rw [if_pos hc]
      by_cases hn : 2 ≤ n
      · rw [if_pos hn]
        rcases ih (n + 1) with ⟨h1, h2⟩
        refine ⟨h1, ?_⟩
        have e1 : min (n + 1) 2 = 2 := by omega
        have e2 : min n 2 = 2 := by omega
        rw [e1] at h2
        rw [e2]
        omega
      · rw [if_neg hn]
        rcases ih (n + 1) with ⟨h1, h2⟩
        have e1 : min (n + 1) 2 = n + 1 := by omega
        rw [e1] at h2
        constructor
        · refine noTripleNL_cons '\n' _ h1 ?_
          intro _
          omega
        · rw [leadNL]
          have e2 : min n 2 = n := by omega
          rw [e2]
          omega
    · rw [if_neg hc]
      rcases ih 0 with ⟨h1, h2⟩
      constructor
      · exact noTripleNL_cons c _ h1 (fun h => absurd h hc)
      · rw [leadNL_cons_ne c _ hc]
        omega

theorem collapseNLAux_mem : ∀ (l : List Char) (n : Nat) (c : Char),
    c ∈ collapseNLAux n l → c ∈ l := by
  intro l
  induction l with
  | nil => intro n c hc; cases hc
  | cons a rest ih =>
    intro n c hc
    rw [collapseNLAux] at hc
    by_cases ha : a = '\n'
    · rw [if_pos ha] at hc
      by_cases hn : 2 ≤ n
      · rw [if_pos hn] at hc
        exact List.mem_cons_of_mem a (ih _ c hc)
      · rw [if_neg hn] at hc
        rcases List.mem_cons.mp hc with rfl | hc2
        · rw [ha]; exact List.mem_cons_self _ _
        · exact List.mem_cons_of_mem a (ih _ c hc2)
    · rw [if_neg ha] at hc
      rcases List.mem_cons.mp hc with rfl | hc2
      · exact List.mem_cons_self _ _
      · exact List.mem_cons_of_mem a (ih _ c hc2)

theorem collapseNLAux_head : ∀ l : List Char, (collapseNLAux 0 l).head? = l.head? := by
  intro l
  cases l with
  | nil => rfl
  | cons a rest =>
    by_cases ha : a = '\n'
    · subst ha
      rfl
    · rw [collapseNLAux, if_neg ha]
      rfl

theorem collapseNLAux_noAdj : ∀ (l : List Char) (n : Nat),
    noAdjHS l = true → noAdjHS (collapseNLAux n l) = true := by
  intro l
  induction l with
  | nil => intro n _; rfl
  | cons a rest ih =>
    intro n h
    rcases noAdjHS_destruct h with ⟨hrest, hhead⟩
    rw [collapseNLAux]
    by_cases ha : a = '\n'
    · rw [if_pos ha]
      by_cases hn : 2 ≤ n
      · rw [if_pos hn]
        exact ih _ hrest
      · rw [if_neg hn]
        refine noAdjHS_cons '\n' _ (ih _ hrest) ?_
        intro d hd
        have : isHSpace '\n' = false := by decide
        simp [this]
    · rw [if_neg ha]
      refine noAdjHS_cons a _ (ih 0 hrest) ?_
      intro d hd
      rw [collapseNLAux_head rest] at hd
      exact hhead d hd

theorem collapseNLAux_getLast : ∀ (l : List Char) (n : Nat) (c : Char),
    c ≠ '\n' → l.getLast? = some c →
    (collapseNLAux n l).getLast? = some c := by
  intro l
  induction l with
  | nil => intro n c _ h; cases h
  | cons a rest ih =>
    intro n c hc hl
    rw [collapseNLAux]
    cases rest with
    | nil =>
      have hac : a = c := by simpa using hl
      subst hac
      rw [if_neg hc]
      rfl
    | cons b rest2 =>
      have hl2 : (b :: rest2).getLast? = some c := by
        rwa [List.getLast?_cons_cons] at hl
      by_cases ha : a = '\n'
      · rw [if_pos ha]
        by_cases hn : 2 ≤ n
        · rw [if_pos hn]
          exact ih (n + 1) c hc hl2
        · rw [if_neg hn]
          have hrec := ih (n + 1) c hc hl2
          cases hx : collapseNLAux (n + 1) (b :: rest2) with
          | nil => rw [hx] at hrec; cases hrec
          | cons d ds =>
            rw [hx] at hrec
            rw [List.getLast?_cons_cons]
            exact hrec
      · rw [if_neg ha]
        have hrec := ih 0 c hc hl2
        cases hx : collapseNLAux 0 (b :: rest2) with
        | nil => rw [hx] at hrec; cases hrec
        | cons d ds =>
          rw [hx] at hrec
          rw [List.getLast?_cons_cons]
          exact hrec

theorem noTripleNL_append_nl : ∀ l : List Char,
    noTripleNL l = true → l.getLast? ≠ some '\n' →
    noTripleNL (l ++ ['\n']) = true := by
  intro l
  induction l with
  | nil => intro _ _; rfl
  | cons a rest ih =>
    intro h hlast
    cases rest with
    | nil => rfl
    | cons b rest2 =>
      have hlast2 : (b :: rest2).getLast? ≠ some '\n' := by
        rwa [List.getLast?_cons_cons] at hlast
      cases rest2 with
      | nil =>
        have hb : b ≠ '\n' := by
          intro hb
          exact hlast2 (by rw [hb]; rfl)
        show noTripleNL [a, b, '\n'] = true
        rw [noTripleNL]
        simp [hb, show noTripleNL [b, '\n'] = true from rfl]
      | cons c rest3 =>
        have hsub : noTripleNL (b :: c :: rest3) = true := by
          rw [noTripleNL, Bool.and_eq_true] at h
          exact h.2
        have hrec := ih hsub hlast2
        show noTripleNL (a :: b :: c :: (rest3 ++ ['\n'])) = true
        rw [noTripleNL, Bool.and_eq_true]
        constructor
        · rw [noTripleNL, Bool.and_eq_true] at h
          exact h.1
        · simpa using hrec

theorem joinWith_cons_cons (sep p q : List Char) (rest : List (List Char)) :
    joinWith sep (p :: q :: rest) = p ++ sep ++ joinWith sep (q :: rest) := rfl

theorem mem_joinWith (sep : List Char) : ∀ (parts : List (List Char)) (c : Char),
    c ∈ joinWith sep parts → c ∈ sep ∨ ∃ p ∈ parts, c ∈ p := by
  intro parts
  induction parts with
  | nil => intro c hc; cases hc
  | cons p rest ih =>
    intro c hc
    cases rest with
    | nil =>
      exact Or.inr ⟨p, List.mem_cons_self _ _, hc⟩
    | cons q rest2 =>
      rw [joinWith_cons_cons] at hc
      rcases List.mem_append.mp hc with hc | hc
      · rcases List.mem_append.mp hc with hc | hc
        · exact Or.inr ⟨p, List.mem_cons_self _ _, hc⟩
        · exact Or.inl hc
      · rcases ih c hc with h | ⟨x, hx, hcx⟩
        · exact Or.inl h
        · exact Or.inr ⟨x, List.mem_cons_of_mem _ hx, hcx⟩

theorem noAdjHS_joinWith : ∀ parts : List (List Char),
    (∀ p ∈ parts, noAdjHS p = true) →
    noAdjHS (joinWith ['\n', '\n'] parts) = true := by
  intro parts
  induction parts with
  | nil => intro _; rfl
  | cons p rest ih =>
    intro h
    cases rest with
    | nil => exact h p (List.mem_cons_self _ _)
    | cons q rest2 =>
      rw [joinWith_cons_cons]
      have hnl : isHSpace '\n' = false := by decide
      rw [List.append_assoc]
      refine noAdjHS_append p _ (h p (List.mem_cons_self _ _)) ?_ ?_
      · refine noAdjHS_append ['\n', '\n'] _ (by decide)
          (ih (fun x hx => h x (List.mem_cons_of_mem _ hx))) ?_
        intro x y hx hy
        have hx2 : '\n' = x := by simpa using hx
        subst hx2
        simp [hnl]
      · intro x y hx hy
        have hy2 : '\n' = y := by simpa using hy
        subst hy2
        simp [hnl]

/-- The character-level properties of one extracted block
(`_TextExtractor.get_text` output): no bad whitespace characters and no
adjacent horizontal whitespace. -/
theorem block_props (l : List Char) :
    (∀ c ∈ pyStripList (collapseNL (collapseHS (normEOL l))), isBadWS c = false) ∧
    noAdjHS (pyStripList (collapseNL (collapseHS (normEOL l)))) = true := by
  constructor
  · intro c hc
    have h1 : c ∈ collapseNL (collapseHS (normEOL l)) := mem_pyStripList hc
    have h2 : c ∈ collapseHS (normEOL l) := collapseNLAux_mem _ 0 c h1
    rcases collapseHSAux_mem _ false c h2 with rfl | ⟨h3, h4⟩
    · decide
    · have h5 : c ≠ '\r' := normEOL_no_cr l c h3
      have ht : c ≠ '\t' := by
        intro h
        rw [h] at h4
        exact absurd h4 (by decide)
      have hf : c ≠ '\x0c' := by
        intro h
        rw [h] at h4
        exact absurd h4 (by decide)
      have hv : c ≠ '\x0b' := by
        intro h
        rw [h] at h4
        exact absurd h4 (by decide)
      simp [isBadWS, ht, h5, hf, hv]
  · exact noAdjHS_pyStripList _
      (collapseNLAux_noAdj _ 0 (collapseHSAux_noAdj (normEOL l) false).1)

/-- The block-accumulating fold of `epub_to_txt` as a `map`/`filter`. -/
theorem parts_foldl (files : List (String × String)) :
    ∀ acc : List String,
      files.foldl
        (fun acc pr =>
          let text := _html_to_text pr.2
          if text ≠ "" then acc ++ [text] else acc) acc
      = acc ++ (files.map (fun pr => _html_to_text pr.2)).filter (fun t => t ≠ "") := by
  induction files with
  | nil => intro acc; simp
  | cons f fs ih =>
    intro acc
    rw [List.foldl_cons, List.map_cons, List.filter_cons]
    by_cases h : _html_to_text f.2 = ""
    · show List.foldl _
        (if _html_to_text f.2 ≠ "" then acc ++ [_html_to_text f.2] else acc) fs = _
      rw [if_neg (fun hne => hne h), if_neg (by simp [h]), ih]
    · show List.foldl _
        (if _html_to_text f.2 ≠ "" then acc ++ [_html_to_text f.2] else acc) fs = _
      rw [if_pos h, if_pos (by simp [h]), ih]
      simp

theorem convert_txt_eq_assemble (zf : Archive) :
    convert_txt zf = assembleTxt (extractedBlocks zf) := by
  show (fun parts : List String =>
      let txt := pyStrip ((joinWith "\n\n".data (parts.map String.data)).asString)
      let txt := collapseNLStr txt
      txt ++ (if txt ≠ "" then "\n" else ""))
    ((_read_text_files zf
        (_collect_xhtml_paths zf (_read_container_rootfile zf)).2).foldl
      (fun acc pr =>
        let text := _html_to_text pr.2
        if text ≠ "" then acc ++ [text] else acc) [])
    = (fun parts : List String =>
      let txt := pyStrip ((joinWith "\n\n".data (parts.map String.data)).asString)
      let txt := collapseNLStr txt
      txt ++ (if txt ≠ "" then "\n" else ""))
    (extractedBlocks zf)
  rw [extractedBlocks]
  have h := parts_foldl
    (_read_text_files zf (_collect_xhtml_paths zf (_read_container_rootfile zf)).2) []
  rw [List.nil_append] at h
  exact congrArg (fun parts : List String =>
    let txt := pyStrip ((joinWith "\n\n".data (parts.map String.data)).asString)
    let txt := collapseNLStr txt
    txt ++ (if txt ≠ "" then "\n" else "")) h


/-- All normalisation properties of the final assembly stage, given
that the joined input has no bad whitespace and no adjacent horizontal
whitespace. -/
theorem finalizeTxt_props (j : List Char)
    (hAdj : noAdjHS j = true)
    (hMem : ∀ c ∈ j, isBadWS c = false) :
    noTripleNL (finalizeTxt j).data = true ∧
    noAdjHS (finalizeTxt j).data = true ∧
    (∀ c ∈ (finalizeTxt j).data, isBadWS c = false) ∧
    (finalizeTxt j = "" ∨ ∃ t : String, finalizeTxt j = t ++ "\n" ∧
      t.data.getLast? ≠ some '\n') := by
  have htdata : (collapseNLStr (pyStrip j.asString)).data
      = collapseNL (pyStripList j) := rfl
  have h0 : finalizeTxt j = collapseNLStr (pyStrip j.asString) ++
      (if collapseNLStr (pyStrip j.asString) ≠ "" then "\n" else "") := rfl
  by_cases hT : collapseNLStr (pyStrip j.asString) = ""
  · have hfin : finalizeTxt j = "" := by
      rw [h0, hT]
      rfl
    rw [hfin]
    refine ⟨rfl, rfl, ?_, Or.inl rfl⟩
    intro c hc
    cases hc
  · have hfin : finalizeTxt j = collapseNLStr (pyStrip j.asString) ++ "\n" := by
      rw [h0, if_pos hT]
    have hdata : (finalizeTxt j).data = collapseNL (pyStripList j) ++ ['\n'] := by
      rw [hfin, String.data_append]
      rfl
    have hsne : pyStripList j ≠ [] := by
      intro hnil
      apply hT
      apply strExt
      rw [htdata, hnil]
      rfl
    obtain ⟨c0, hc0⟩ : ∃ c0, (pyStripList j).getLast? = some c0 := by
      cases hg : (pyStripList j).getLast? with
      | none => exact absurd (List.getLast?_eq_none_iff.mp hg) hsne
      | some c0 => exact ⟨c0, rfl⟩
    have hc0sp : pyIsSpace c0 = false := getLast?_pyStripList_not_space j c0 hc0
    have hc0nl : c0 ≠ '\n' := by
      intro h1
      rw [h1] at hc0sp
      exact absurd hc0sp (by decide)
    have htlast : (collapseNL (pyStripList j)).getLast? = some c0 :=
      collapseNLAux_getLast _ 0 c0 hc0nl hc0
    have hAdjT : noAdjHS (collapseNL (pyStripList j)) = true :=
      collapseNLAux_noAdj _ 0 (noAdjHS_pyStripList _ hAdj)
    have hTriple : noTripleNL (collapseNL (pyStripList j)) = true :=
      (collapseNLAux_noTriple (pyStripList j) 0).1
    refine ⟨?_, ?_, ?_, ?_⟩
    · rw [hdata]
      refine noTripleNL_append_nl _ hTriple ?_
      rw [htlast]
      intro h1
      exact hc0nl (Option.some.inj h1)
    · rw [hdata]
      refine noAdjHS_append _ ['\n'] hAdjT rfl ?_
      intro x y hx hy
      have hy2 : '\n' = y := by simpa using hy
      subst hy2
      simp [show isHSpace '\n' = false from by decide]
    · rw [hdata]
      intro c hc
      rcases List.mem_append.mp hc with hc | hc
      · exact hMem c (mem_pyStripList (collapseNLAux_mem _ 0 c hc))
      · have hcn : c = '\n' := by simpa using hc
        subst hcn
        decide
    · right
      refine ⟨collapseNLStr (pyStrip j.asString), hfin, ?_⟩
      rw [htdata, htlast]
      intro h1
      exact hc0nl (Option.some.inj h1)

/-- All normalisation properties of the full assembly, given the
per-block properties. -/
theorem assembleTxt_props (blocks : List String)
    (hb : ∀ b ∈ blocks, (∀ c ∈ b.data, isBadWS c = false) ∧ noAdjHS b.data = true) :
    noTripleNL (assembleTxt blocks).data = true ∧
    noAdjHS (assembleTxt blocks).data = true ∧
    (∀ c ∈ (assembleTxt blocks).data, isBadWS c = false) ∧
    (assembleTxt blocks = "" ∨ ∃ t : String, assembleTxt blocks = t ++ "\n" ∧
      t.data.getLast? ≠ some '\n') := by
  have hAdj : noAdjHS (joinWith "\n\n".data (blocks.map String.data)) = true := by
    refine noAdjHS_joinWith _ ?_
    intro p hp
    rcases List.mem_map.mp hp with ⟨b, hbmem, rfl⟩
    exact (hb b hbmem).2
  have hMem : ∀ c ∈ joinWith "\n\n".data (blocks.map String.data),
      isBadWS c = false := by
    intro c hc
    rcases mem_joinWith _ _ c hc with h | ⟨p, hp, hcp⟩
    · have h2 : c ∈ ['\n', '\n'] := h
      have hcn : c = '\n' := by simpa using h2
      subst hcn
      decide
    · rcases List.mem_map.mp hp with ⟨b, hbmem, rfl⟩
      exact (hb b hbmem).1 c hcp
  have heq : assembleTxt blocks
      = finalizeTxt (joinWith "\n\n".data (blocks.map String.data)) := rfl
  rw [heq]
  exact finalizeTxt_props _ hAdj hMem

/-- C7: the final plain text of `epub_to_txt` is exactly the blank-line
join of the non-empty per-document blocks, post-processed so that no
three consecutive newlines remain, horizontal whitespace appears only as
single spaces (no tabs, form feeds, vertical tabs or carriage returns,
and never two adjacent horizontal-whitespace characters), and a
non-empty result carries exactly one trailing newline while an empty
result stays empty. -/
theorem txt_output_normalized :
    ∀ zf : Archive,
      convert_txt zf = assembleTxt (extractedBlocks zf) ∧
      noTripleNL (convert_txt zf).data = true ∧
      noAdjHS (convert_txt zf).data = true ∧
      (∀ c ∈ (convert_txt zf).data, isBadWS c = false) ∧
      (convert_txt zf = "" ∨ ∃ t : String, convert_txt zf = t ++ "\n" ∧
        t.data.getLast? ≠ some '\n') := by
  intro zf
  have heq := convert_txt_eq_assemble zf
  have hb : ∀ b ∈ extractedBlocks zf,
      (∀ c ∈ b.data, isBadWS c = false) ∧ noAdjHS b.data = true := by
    intro b hbmem
    have hmb := (List.mem_filter.mp hbmem).1
    rcases List.mem_map.mp hmb with ⟨pr, _, rfl⟩
    exact block_props
      ((String.join (feedEvents ExtState.init (tokenize pr.2)).parts).data)
  rcases assembleTxt_props (extractedBlocks zf) hb with ⟨h1, h2, h3, h4⟩
  rw [heq]
  exact ⟨rfl, h1, h2, h3, h4⟩

/-- C8 witness: the character-exclusion clause applied to a concrete
character of a concretely escaped title. -/
theorem title_escaping_safe_witness :
    'E' ≠ '<' ∧ 'E' ≠ '>' ∧ 'E' ≠ '&' ∧ 'E' ≠ '"' :=
  (title_escaping_safe.1 (some "<Evil & \"Title\">")).1 'E' (by decide)

/-- C7 witness: the normalisation properties applied to a concrete
archive (whose single chapter `<p>Hi</p>` is referenced twice by the
spine), discharging the membership hypothesis at a concrete character. -/
theorem txt_output_normalized_witness :
    isBadWS 'H' = false ∧
    convert_txt arcSpine = assembleTxt (extractedBlocks arcSpine) :=
  ⟨(txt_output_normalized arcSpine).2.2.2.1 'H' (by decide),
   (txt_output_normalized arcSpine).1⟩
